import Mathlib

/-!
Verification development for the sawmill attribute-storage engine.

This file gives a shallow embedding of the attribute-store code of the
repository (the flat store `FlatAttributes` from `flat_attributes.go`, the
tree store `RecursiveMap` from `builder.go`, the masking / struct-expansion
logic, and the pooling layer from `pools.go`) and settles the frozen claims
about it.

Modelling conventions:
* Go `map[string]V` is modelled as an association list `List (String × V)`
  whose update replaces the first matching key (keys stay unique for every
  map built by the code, matching Go maps).  Iteration order of a Go map is
  unspecified; the model fixes insertion order, which is one admissible
  order, and no settled claim depends on a particular order.
* Go strings are modelled as Lean `String` (a list of characters); `len`,
  slicing and `*`-repetition are modelled on characters.  All concrete
  inputs appearing in the claims are ASCII, where this coincides with Go's
  byte-based view.
* `interface{}` payload values are an opaque type parameter `V` wherever the
  code treats them opaquely; struct expansion uses the reflective value
  model `RVal`.
-/

set_option autoImplicit false

namespace Sawmill

universe u

variable {V : Type u}

/-! ## Character-level split and join (Go `strings.Split` / `strings.Join` on ".") -/

/-- Model of Go `strings.Split(s, ".")` at the character-list level.
Splitting the empty string yields one empty segment, as in Go. -/
def splitChars : List Char → List (List Char)
  | [] => [[]]
  | c :: rest =>
    if c = '.' then [] :: splitChars rest
    else
      match splitChars rest with
      | [] => [[c]]
      | h :: t => (c :: h) :: t

/-- Model of Go `strings.Join(parts, ".")` at the character-list level. -/
def joinChars : List (List Char) → List Char
  | [] => []
  | [l] => l
  | l :: rest => l ++ '.' :: joinChars rest

/-- Go `strings.Join(keyPath, ".")` on `String` segments. -/
def joinDots (p : List String) : String :=
  ⟨joinChars (p.map String.data)⟩

/-- Go `strings.Split(dotPath, ".")` producing `String` segments. -/
def splitDots (s : String) : List String :=
  (splitChars s.data).map String.mk

/-- A segment is dot-free when it does not contain the join delimiter. -/
def DotFree (s : String) : Prop := '.' ∉ s.data

instance (s : String) : Decidable (DotFree s) := by
  unfold DotFree; infer_instance

/-! ## Association lists modelling Go `map[string]V` -/

/-- Lookup in a Go map modelled as an association list (first match). -/
def lookupAL (k : String) : List (String × V) → Option V
  | [] => none
  | (k', v) :: t => if k' = k then some v else lookupAL k t

/-- Go map assignment `m[k] = v`: replace the first binding of `k`, or append
a fresh binding when `k` is absent. -/
def insertAL (k : String) (v : V) : List (String × V) → List (String × V)
  | [] => [(k, v)]
  | (k', v') :: t => if k' = k then (k, v) :: t else (k', v') :: insertAL k v t

/-- Go `delete(m, k)`: remove the first binding of `k`. -/
def eraseAL (k : String) : List (String × V) → List (String × V)
  | [] => []
  | (k', v') :: t => if k' = k then t else (k', v') :: eraseAL k t

/-- Key-membership test, `_, exists := m[k]`. -/
def containsAL (k : String) (m : List (String × V)) : Bool :=
  (lookupAL k m).isSome

/-- The keys of the map have no duplicates (always true of a Go map). -/
def NodupKeys (m : List (String × V)) : Prop :=
  (m.map Prod.fst).Nodup

/-! ## FlatAttributes (flat_attributes.go)

State of the flat store.  `data` is the promoted hash-map tier
(`none` models a nil Go map); `small` is the inline small-array tier
(`smallData` with `smallCount` live entries, capacity 8). -/

structure FlatAttributes (V : Type u) : Type u where
  data : Option (List (String × V))
  small : List (String × V)

namespace FlatAttributes

/-- `NewFlatAttributes`: map tier allocated and empty, inline tier empty. -/
def new : FlatAttributes V := ⟨some [], []⟩

/-- The Go zero value `FlatAttributes{}`: nil map, empty inline tier. -/
def zero : FlatAttributes V := ⟨none, []⟩

/-- `SetByDotNotation`: allocate the map tier if nil, then assign.
The inline tier is not consulted. -/
def setByDotNotation (f : FlatAttributes V) (dotPath : String) (v : V) :
    FlatAttributes V :=
  ⟨some (insertAL dotPath v (f.data.getD [])), f.small⟩

/-- `Set`: empty paths are a silent no-op; otherwise join and delegate. -/
def set (f : FlatAttributes V) (keyPath : List String) (v : V) :
    FlatAttributes V :=
  if keyPath = [] then f else f.setByDotNotation (joinDots keyPath) v

/-- Replace the value of `k` inside the inline tier, or append it
(the scan-then-append loop of `SetFast`'s fast path). -/
def smallPut (k : String) (v : V) : List (String × V) → List (String × V)
  | [] => [(k, v)]
  | (k', v') :: t => if k' = k then (k, v) :: t else (k', v') :: smallPut k v t

/-- `SetFast`: inline tier while the map is nil and fewer than 8 entries
live; otherwise migrate the inline entries into a freshly allocated map
(when the map is nil) and assign into the map. -/
def setFast (f : FlatAttributes V) (k : String) (v : V) : FlatAttributes V :=
  match f.data with
  | none =>
    if f.small.length < 8 then ⟨none, smallPut k v f.small⟩
    else ⟨some (insertAL k v (f.small.foldl (fun m e => insertAL e.1 e.2 m) [])), []⟩
  | some m => ⟨some (insertAL k v m), f.small⟩

/-- `GetByDotNotation`: the inline tier is scanned first, then the map. -/
def getByDotNotation (f : FlatAttributes V) (dotPath : String) : Option V :=
  match lookupAL dotPath f.small with
  | some v => some v
  | none =>
    match f.data with
    | none => none
    | some m => lookupAL dotPath m

/-- `Get`: join (an empty path joins to `""`) and look up. -/
def get (f : FlatAttributes V) (keyPath : List String) : Option V :=
  f.getByDotNotation (joinDots keyPath)

/-- `HasByDotNotation`. -/
def hasByDotNotation (f : FlatAttributes V) (dotPath : String) : Bool :=
  (f.getByDotNotation dotPath).isSome

/-- `Has`. -/
def has (f : FlatAttributes V) (keyPath : List String) : Bool :=
  (f.get keyPath).isSome

/-- `DeleteByDotNotation`: only the map tier is consulted; returns whether a
binding was removed together with the new state. -/
def deleteByDotNotation (f : FlatAttributes V) (dotPath : String) :
    Bool × FlatAttributes V :=
  match f.data with
  | none => (false, f)
  | some m =>
    if containsAL dotPath m then (true, ⟨some (eraseAL dotPath m), f.small⟩)
    else (false, f)

/-- `Delete`: join and delegate. -/
def delete (f : FlatAttributes V) (keyPath : List String) :
    Bool × FlatAttributes V :=
  f.deleteByDotNotation (joinDots keyPath)

/-- `Keys`: keys of the map tier only (nil map yields nil).  The inline
tier is not reported. -/
def keys (f : FlatAttributes V) : List String :=
  match f.data with
  | none => []
  | some m => m.map Prod.fst

/-- `Size`: map-tier count plus inline-tier count. -/
def size (f : FlatAttributes V) : Nat :=
  match f.data with
  | none => f.small.length
  | some m => m.length + f.small.length

/-- `IsEmpty`. -/
def isEmpty (f : FlatAttributes V) : Bool :=
  f.size = 0

/-- `Clone`: a fresh store (`NewFlatAttributes`) into which only the map
tier of the source is copied; the inline tier is not copied. -/
def clone (f : FlatAttributes V) : FlatAttributes V :=
  ⟨some (f.data.getD []), []⟩

/-- `Merge`: a nil/empty other is a no-op; otherwise allocate the map tier
if nil and copy every binding of the map tier of `other` into it.  Neither
inline tier is touched. -/
def merge (f other : FlatAttributes V) : FlatAttributes V :=
  if other.isEmpty then f
  else ⟨some ((other.data.getD []).foldl (fun m e => insertAL e.1 e.2 m)
    (f.data.getD [])), f.small⟩

/-- `Walk`: the `(path, value)` pairs handed to the visitor, in visiting
order — inline tier first, then the map tier, paths re-split on dots. -/
def walkEntries (f : FlatAttributes V) : List (List String × V) :=
  (f.small ++ f.data.getD []).map (fun e => (splitDots e.1, e.2))

/-- The unexported `reset`: clear the map tier in place when allocated
(a nil map stays nil) and drop every inline entry. -/
def reset (f : FlatAttributes V) : FlatAttributes V :=
  ⟨f.data.map (fun _ => []), []⟩

end FlatAttributes

/-! ## RecursiveMap (builder.go)

Tree store: each node holds an optional terminal value (`value` together
with `hasValue`; `none` models `hasValue = false`, where the Go `value`
field is nil) and a children map from single segments to subtrees. -/

inductive RecursiveMap (V : Type u) : Type u where
  | node (val : Option V) (children : List (String × RecursiveMap V))

namespace RecursiveMap

/-- `NewRecursiveMap`: no value, no children. -/
def new : RecursiveMap V := .node none []

/-- The optional terminal value of the root node. -/
def rootVal : RecursiveMap V → Option V
  | .node v _ => v

/-- The children association list of the root node. -/
def children : RecursiveMap V → List (String × RecursiveMap V)
  | .node _ cs => cs

/-- Lookup of `rm.children[key]` (nil handled by the caller in Go). -/
def getChild (k : String) : List (String × RecursiveMap V) →
    Option (RecursiveMap V)
  | [] => none
  | (k', c) :: t => if k' = k then some c else getChild k t

/-- Assignment `rm.children[key] = c`. -/
def setChild (k : String) (c : RecursiveMap V) :
    List (String × RecursiveMap V) → List (String × RecursiveMap V)
  | [] => [(k, c)]
  | (k', c') :: t => if k' = k then (k, c) :: t else (k', c') :: setChild k c t

/-- `delete(rm.children, key)`. -/
def eraseChild (k : String) : List (String × RecursiveMap V) →
    List (String × RecursiveMap V)
  | [] => []
  | (k', c') :: t => if k' = k then t else (k', c') :: eraseChild k t

/-- `Set`: an empty path stores at the current node (the root value);
otherwise descend into the child for the head segment, creating it when
absent. -/
def set (rm : RecursiveMap V) (keyPath : List String) (v : V) :
    RecursiveMap V :=
  match keyPath, rm with
  | [], .node _ cs => .node (some v) cs
  | k :: rest, .node val cs =>
    let child := (getChild k cs).getD new
    .node val (setChild k (child.set rest v) cs)

/-- `Get` returns `(value, found)` as an option. -/
def get (rm : RecursiveMap V) (keyPath : List String) : Option V :=
  match keyPath, rm with
  | [], .node v _ => v
  | k :: rest, .node _ cs =>
    match getChild k cs with
    | none => none
    | some child => child.get rest

/-- `Has`. -/
def has (rm : RecursiveMap V) (keyPath : List String) : Bool :=
  (rm.get keyPath).isSome

/-- `Delete`: at the node itself, clear the value if present; one segment
from the target, remove the child entirely when it has no children (whether
or not it holds a value), otherwise clear the child's value; deeper,
recurse.  Returns whether something was removed with the new state. -/
def delete (rm : RecursiveMap V) (keyPath : List String) :
    Bool × RecursiveMap V :=
  match keyPath, rm with
  | [], .node v cs =>
    match v with
    | some _ => (true, .node none cs)
    | none => (false, .node none cs)
  | [k], .node val cs =>
    match getChild k cs with
    | none => (false, .node val cs)
    | some child =>
      if child.children.isEmpty then (true, .node val (eraseChild k cs))
      else
        let r := child.delete []
        (r.1, .node val (setChild k r.2 cs))
  | k :: rest, .node val cs =>
    match getChild k cs with
    | none => (false, .node val cs)
    | some child =>
      let r := child.delete rest
      (r.1, .node val (setChild k r.2 cs))

mutual

/-- `Size`: number of nodes holding a terminal value. -/
def size : RecursiveMap V → Nat
  | .node v cs => (if v.isSome then 1 else 0) + sizeList cs

/-- Sum of the sizes of a children list. -/
def sizeList : List (String × RecursiveMap V) → Nat
  | [] => 0
  | (_, c) :: t => c.size + sizeList t

end

/-- `IsEmpty`: no value at the root and no children at all. -/
def isEmpty (rm : RecursiveMap V) : Bool :=
  !rm.rootVal.isSome && rm.children.isEmpty

/-- `SetByDotNotation` splits the dotted string and delegates to `set`. -/
def setByDotNotation (rm : RecursiveMap V) (dotPath : String) (v : V) :
    RecursiveMap V :=
  rm.set (splitDots dotPath) v

/-- `GetByDotNotation`. -/
def getByDotNotation (rm : RecursiveMap V) (dotPath : String) : Option V :=
  rm.get (splitDots dotPath)

/-- `HasByDotNotation`. -/
def hasByDotNotation (rm : RecursiveMap V) (dotPath : String) : Bool :=
  rm.has (splitDots dotPath)

/-- `DeleteByDotNotation`. -/
def deleteByDotNotation (rm : RecursiveMap V) (dotPath : String) :
    Bool × RecursiveMap V :=
  rm.delete (splitDots dotPath)

mutual

/-- `Clone`: deep copy of the structure (values shared). -/
def clone : RecursiveMap V → RecursiveMap V
  | .node v cs => .node v (cloneList cs)

/-- Clone of a children list. -/
def cloneList : List (String × RecursiveMap V) → List (String × RecursiveMap V)
  | [] => []
  | (k, c) :: t => (k, c.clone) :: cloneList t

end

mutual

/-- `Merge`: absorb the value and, child by child, the subtrees of `other`
(cloning children that are new to `self`). -/
def merge (rm other : RecursiveMap V) : RecursiveMap V :=
  match rm, other with
  | .node v cs, .node ov ocs =>
    .node (if ov.isSome then ov else v) (mergeList cs ocs)

/-- Fold of `Merge` over the children of `other`. -/
def mergeList (cs : List (String × RecursiveMap V)) :
    List (String × RecursiveMap V) → List (String × RecursiveMap V)
  | [] => cs
  | (k, oc) :: t =>
    let cs' :=
      match getChild k cs with
      | none => setChild k oc.clone cs
      | some c => setChild k (c.merge oc) cs
    mergeList cs' t

end

end RecursiveMap

/-! ## Masking (FlatAttributes.maskValue) and struct expansion (ExpandStruct)

Reflective Go values as seen by `ExpandStruct`: strings, integers,
booleans, the nil interface, pointers (possibly nil), and structs whose
fields carry `(name, exported?, sawmill-tag, value)`. -/

inductive RVal : Type where
  | vstr (s : String)
  | vint (n : Int)
  | vbool (b : Bool)
  | vnil
  | vptr (inner : Option RVal)
  | vstruct (fields : List (String × Bool × String × RVal))

/-- Largest value `strconv.Atoi` accepts on a 64-bit platform
(`math.MaxInt64`); larger numerals make it return `ErrRange`. -/
def maxGoInt : Nat := 2 ^ 63 - 1

/-- Numeric value of a digit string. -/
def digitsToNat (ds : List Char) : Nat :=
  ds.foldl (fun a c => 10 * a + (c.toNat - '0'.toNat)) 0

/-- The anchored regular expression of `maskValue`: a tag matches
`^mask\[(\d+)\]$` exactly when it is `mask[` followed by one or more
digits followed by a closing bracket; the captured digit run is returned. -/
def maskBracketDigits (tag : String) : Option (List Char) :=
  let l := tag.data
  if l.take 5 = "mask[".data ∧ l.getLast? = some ']' then
    let mid := (l.drop 5).dropLast
    if mid ≠ [] ∧ mid.all Char.isDigit then some mid else none
  else none

/-- `strconv.Atoi` on a digit run: the numeric value, or `none` on
overflow of the machine integer range (`ErrRange`). -/
def goAtoi (ds : List Char) : Option Nat :=
  if digitsToNat ds ≤ maxGoInt then some (digitsToNat ds) else none

/-- A run of `n` mask characters, `strings.Repeat("*", n)`. -/
def mkStars (n : Nat) : String := ⟨List.replicate n '*'⟩

/-- Go string slicing `s[:n]`. -/
def takeStr (n : Nat) (s : String) : String := ⟨s.data.take n⟩

mutual

/-- Display form `fmt.Sprintf("%v", value)`.  Exact for strings, integers
and booleans (the cases the masking claims exercise) and for nil values;
a non-nil pointer prints its pointee behind `&` and a struct prints its
field values in braces, approximating Go's `%v` (whose pointer output is
address-dependent and thus outside a deterministic model). -/
def displayRVal : RVal → String
  | .vstr s => s
  | .vint n => toString n
  | .vbool b => if b then "true" else "false"
  | .vnil => "<nil>"
  | .vptr none => "<nil>"
  | .vptr (some x) => "&" ++ displayRVal x
  | .vstruct fs => "\x7b" ++ displayFields fs ++ "\x7d"

/-- Space-separated field values of a struct display. -/
def displayFields : List (String × Bool × String × RVal) → String
  | [] => ""
  | [f] => displayRVal f.2.2.2
  | f :: t => displayRVal f.2.2.2 ++ " " ++ displayFields t

end

/-- `FlatAttributes.maskValue`: empty tag or empty display string return
the value unchanged; a tag matching `mask[n]` reveals the first `n`
characters and masks the rest, returns the value unchanged when `n` is at
least the length, and falls back to full masking when `Atoi` fails
(machine-integer overflow); the bare tag `mask` masks everything; any
other tag returns the value unchanged. -/
def maskValue (v : RVal) (maskTag : String) : RVal :=
  if maskTag = "" then v
  else
    let strValue := displayRVal v
    if strValue = "" then v
    else
      match maskBracketDigits maskTag with
      | some ds =>
        match goAtoi ds with
        | none => .vstr (mkStars strValue.length)
        | some unmaskCount =>
          if strValue.length ≤ unmaskCount then v
          else .vstr (takeStr unmaskCount strValue ++
            mkStars (strValue.length - unmaskCount))
      | none =>
        if maskTag = "mask" then .vstr (mkStars strValue.length) else v

/-- Lowercasing of a Go field name (`strings.ToLower`; ASCII-faithful). -/
def toLowerStr (s : String) : String := ⟨s.data.map Char.toLower⟩

/-- The dotted key of a field: the prefix extended with the lowercased
field name, or the bare name under an empty prefix. -/
def fieldKeyOf (pfx : String) (fname : String) : String :=
  if pfx = "" then toLowerStr fname else pfx ++ "." ++ toLowerStr fname

/-- The recursion guard of `ExpandStruct`'s field loop:
`field.Kind() == Struct || (Ptr && !IsNil && Elem().Kind() == Struct)`. -/
def isStructKind : RVal → Bool
  | .vstruct _ => true
  | .vptr (some (.vstruct _)) => true
  | _ => false

/-- `strings.HasPrefix(sawmillTag, "mask")`. -/
def tagIsMask (tag : String) : Bool :=
  "mask".data.isPrefixOf tag.data

mutual

/-- `ExpandStruct`: a nil interface is ignored; one level of non-nil
pointer indirection is stripped; a non-struct value (including a nil
pointer and a pointer to a non-struct) is stored as-is — the original,
undereferenced value — under the prefix; a struct has its fields walked. -/
def expandStruct (f : FlatAttributes RVal) (pfx : String) (v : RVal) :
    FlatAttributes RVal :=
  match v with
  | .vnil => f
  | .vstruct fields => expandFields f pfx fields
  | .vptr (some (.vstruct fields)) => expandFields f pfx fields
  | other => f.setByDotNotation pfx other

/-- The field loop of `ExpandStruct`: unexported fields are skipped;
struct-kinded fields (struct, or non-nil pointer to struct) are recursed
into; every other field — nil pointer fields included — is stored at its
key, masked first when its tag starts with `mask`. -/
def expandFields (f : FlatAttributes RVal) (pfx : String) :
    List (String × Bool × String × RVal) → FlatAttributes RVal
  | [] => f
  | (fname, exported, tag, fv) :: rest =>
    let f' :=
      if exported then
        let fieldKey := fieldKeyOf pfx fname
        if isStructKind fv then expandStruct f fieldKey fv
        else
          let stored := if tagIsMask tag then maskValue fv tag else fv
          f.setByDotNotation fieldKey stored
      else f
    expandFields f' pfx rest

end

/-! ## Pools (pools.go)

`sync.Pool.Get` hands back either a freshly constructed instance or an
arbitrary previously `Put` one; acquisition is therefore modelled over an
arbitrary candidate instance, and the pooled free list as an explicit
list for the `Put` side. -/

/-- A log record: severity, message, a timestamp tick and its attribute
store (context / PC / output id carry no attribute state and are
elided). -/
structure Record (V : Type u) : Type u where
  level : Nat
  message : String
  time : Nat
  attrs : FlatAttributes V

/-- `NewRecordFromPool`: whatever instance the pool hands out has its
level, message and timestamp overwritten and its attribute store reset
before being returned to the caller. -/
def newRecordFromPool (candidate : Record V) (level : Nat) (msg : String)
    (now : Nat) : Record V :=
  { level := level, message := msg, time := now,
    attrs := candidate.attrs.reset }

/-- `ReturnRecordToPool`: the record is put back as-is; neither the
record nor its attribute store is reset on release. -/
def returnRecordToPool (pool : List (Record V)) (r : Record V) :
    List (Record V) :=
  r :: pool

/-- `NewFlatAttributesFromPool`: the instance handed out by the pool is
reset before being returned to the caller. -/
def newFlatAttributesFromPool (candidate : FlatAttributes V) :
    FlatAttributes V :=
  candidate.reset

/-- `ReturnFlatAttributesToPool`: reset, then put back. -/
def returnFlatAttributesToPool (pool : List (FlatAttributes V))
    (f : FlatAttributes V) : List (FlatAttributes V) :=
  f.reset :: pool

/-! ## The shared external contract of the two stores (claim C1)

One operation language over both stores, with the observation each
operation returns. -/

inductive StoreOp (V : Type u) : Type u where
  | setPath (p : List String) (v : V)
  | setDot (s : String) (v : V)
  | getPath (p : List String)
  | getDot (s : String)
  | hasPath (p : List String)
  | delPath (p : List String)
  | sizeQ
  | emptyQ
  deriving DecidableEq

inductive StoreObs (V : Type u) : Type u where
  | done
  | val (v : Option V)
  | flag (b : Bool)
  | count (n : Nat)
  deriving DecidableEq

/-- One operation against the tree store. -/
def stepRM (rm : RecursiveMap V) : StoreOp V → StoreObs V × RecursiveMap V
  | .setPath p v => (.done, rm.set p v)
  | .setDot s v => (.done, rm.setByDotNotation s v)
  | .getPath p => (.val (rm.get p), rm)
  | .getDot s => (.val (rm.getByDotNotation s), rm)
  | .hasPath p => (.flag (rm.has p), rm)
  | .delPath p => let r := rm.delete p; (.flag r.1, r.2)
  | .sizeQ => (.count rm.size, rm)
  | .emptyQ => (.flag rm.isEmpty, rm)

/-- One operation against the flat store. -/
def stepFA (f : FlatAttributes V) : StoreOp V → StoreObs V × FlatAttributes V
  | .setPath p v => (.done, f.set p v)
  | .setDot s v => (.done, f.setByDotNotation s v)
  | .getPath p => (.val (f.get p), f)
  | .getDot s => (.val (f.getByDotNotation s), f)
  | .hasPath p => (.flag (f.has p), f)
  | .delPath p => let r := f.delete p; (.flag r.1, r.2)
  | .sizeQ => (.count f.size, f)
  | .emptyQ => (.flag f.isEmpty, f)

/-- Observations of a call sequence against the tree store. -/
def runRM (rm : RecursiveMap V) : List (StoreOp V) → List (StoreObs V)
  | [] => []
  | op :: rest =>
    let r := stepRM rm op
    r.1 :: runRM r.2 rest

/-- Observations of a call sequence against the flat store. -/
def runFA (f : FlatAttributes V) : List (StoreOp V) → List (StoreObs V)
  | [] => []
  | op :: rest =>
    let r := stepFA f op
    r.1 :: runFA r.2 rest

/-- A segment-path argument is well-behaved when it is non-empty and no
segment contains the join delimiter. -/
def goodPath (p : List String) : Bool :=
  !p.isEmpty && p.all (fun s => decide (DotFree s))

/-- Restrictions under which the two stores agree (the amended claim C1):
explicit segment paths are non-empty with dot-free segments, and every
delete targets a single-segment key currently present in the store. -/
def opValid (f : FlatAttributes V) : StoreOp V → Bool
  | .setPath p _ => goodPath p
  | .getPath p => goodPath p
  | .hasPath p => goodPath p
  | .delPath p => goodPath p && p.length = 1 && f.has p
  | _ => true

/-- Validity of a whole sequence, judged along the flat store's run. -/
def validOps (f : FlatAttributes V) : List (StoreOp V) → Bool
  | [] => true
  | op :: rest => opValid f op && validOps (stepFA f op).2 rest


/-! ## Lemmas about the association-list model of Go maps -/

theorem lookupAL_insertAL_self (k : String) (v : V) (m : List (String × V)) :
    lookupAL k (insertAL k v m) = some v := by
  induction m with
  | nil => simp [insertAL, lookupAL]
  | cons e t ih =>
    obtain ⟨k', v'⟩ := e
    by_cases h : k' = k
    · simp [insertAL, h, lookupAL]
    · simp [insertAL, h, lookupAL, ih]

theorem lookupAL_insertAL_ne {k k' : String} (h : k' ≠ k) (v : V)
    (m : List (String × V)) :
    lookupAL k' (insertAL k v m) = lookupAL k' m := by
  induction m with
  | nil => simp [insertAL, lookupAL, Ne.symm h]
  | cons e t ih =>
    obtain ⟨k'', v'⟩ := e
    by_cases hk : k'' = k
    · subst hk
      simp [insertAL, lookupAL, Ne.symm h]
    · simp [insertAL, hk, lookupAL, ih]

theorem length_insertAL (k : String) (v : V) (m : List (String × V)) :
    (insertAL k v m).length =
      if containsAL k m then m.length else m.length + 1 := by
  induction m with
  | nil => simp [insertAL, containsAL, lookupAL]
  | cons e t ih =>
    obtain ⟨k', v'⟩ := e
    by_cases h : k' = k
    · simp [insertAL, h, containsAL, lookupAL]
    · simp only [insertAL, if_neg h, containsAL, lookupAL, List.length_cons]
      simp only [containsAL] at ih
      by_cases hc : (lookupAL k t).isSome
      · simp [h, hc, ih]
      · simp [h, hc, ih]

theorem lookupAL_eq_none_of_not_mem {k : String} {m : List (String × V)}
    (h : k ∉ m.map Prod.fst) : lookupAL k m = none := by
  induction m with
  | nil => rfl
  | cons e t ih =>
    obtain ⟨k', v'⟩ := e
    simp only [List.map_cons, List.mem_cons] at h
    push_neg at h
    simp [lookupAL, Ne.symm h.1, ih h.2]

theorem lookupAL_eraseAL_self {m : List (String × V)} (hn : NodupKeys m)
    (k : String) : lookupAL k (eraseAL k m) = none := by
  induction m with
  | nil => rfl
  | cons e t ih =>
    obtain ⟨k', v'⟩ := e
    have hn' : NodupKeys t := by
      simpa [NodupKeys] using (List.nodup_cons.mp hn).2
    have hnot : k' ∉ t.map Prod.fst := (List.nodup_cons.mp hn).1
    by_cases h : k' = k
    · subst h
      simp only [eraseAL, if_pos rfl]
      exact lookupAL_eq_none_of_not_mem hnot
    · simp [eraseAL, h, lookupAL, ih hn']

theorem lookupAL_eraseAL_ne {k k' : String} (h : k' ≠ k)
    (m : List (String × V)) :
    lookupAL k' (eraseAL k m) = lookupAL k' m := by
  induction m with
  | nil => simp [eraseAL]
  | cons e t ih =>
    obtain ⟨k'', v'⟩ := e
    by_cases hk : k'' = k
    · subst hk
      simp [eraseAL, lookupAL, Ne.symm h]
    · simp [eraseAL, hk, lookupAL, ih]

theorem length_eraseAL_contains {m : List (String × V)} {k : String}
    (h : containsAL k m = true) :
    (eraseAL k m).length + 1 = m.length := by
  induction m with
  | nil => simp [containsAL, lookupAL] at h
  | cons e t ih =>
    obtain ⟨k', v'⟩ := e
    by_cases hk : k' = k
    · simp [eraseAL, hk]
    · simp only [containsAL, lookupAL, if_neg hk] at h
      simp [eraseAL, hk, ih h]

theorem containsAL_iff_mem_keys (k : String) (m : List (String × V)) :
    containsAL k m = true ↔ k ∈ m.map Prod.fst := by
  induction m with
  | nil => simp [containsAL, lookupAL]
  | cons e t ih =>
    obtain ⟨k', v'⟩ := e
    by_cases h : k' = k
    · simp [containsAL, lookupAL, h]
    · simp only [containsAL, lookupAL, if_neg h, List.map_cons,
        List.mem_cons]
      rw [containsAL] at ih
      rw [ih]
      constructor
      · exact Or.inr
      · rintro (rfl | hmem)
        · exact absurd rfl h
        · exact hmem

theorem keys_insertAL (k : String) (v : V) (m : List (String × V)) :
    (insertAL k v m).map Prod.fst =
      if containsAL k m then m.map Prod.fst else m.map Prod.fst ++ [k] := by
  induction m with
  | nil => simp [insertAL, containsAL, lookupAL]
  | cons e t ih =>
    obtain ⟨k', v'⟩ := e
    by_cases h : k' = k
    · simp [insertAL, h, containsAL, lookupAL]
    · simp only [insertAL, if_neg h, containsAL, lookupAL, List.map_cons]
      rw [containsAL] at ih
      by_cases hc : (lookupAL k t).isSome
      · simp [hc, ih]
      · simp only [hc, if_false] at ih
        simp [hc, ih]

theorem nodupKeys_insertAL (k : String) (v : V) {m : List (String × V)}
    (hn : NodupKeys m) : NodupKeys (insertAL k v m) := by
  unfold NodupKeys
  rw [keys_insertAL]
  by_cases hc : containsAL k m
  · simpa [hc, NodupKeys] using hn
  · rw [if_neg (by simpa using hc)]
    rw [List.nodup_append]
    refine ⟨hn, List.nodup_singleton k, ?_⟩
    intro a ha hb
    simp only [List.mem_singleton] at hb
    subst hb
    exact absurd ((containsAL_iff_mem_keys a m).mpr ha) (by simpa using hc)

theorem keys_eraseAL_subset (k : String) (m : List (String × V)) :
    ∀ a, a ∈ (eraseAL k m).map Prod.fst → a ∈ m.map Prod.fst := by
  induction m with
  | nil => simp [eraseAL]
  | cons e t ih =>
    obtain ⟨k', v'⟩ := e
    by_cases h : k' = k
    · intro a ha
      simp only [eraseAL, if_pos h] at ha
      simp [ha]
    · intro a ha
      simp only [eraseAL, if_neg h, List.map_cons, List.mem_cons] at ha
      rcases ha with rfl | ha
      · simp
      · simp [ih a ha]

/-! ## Lemmas about splitting and joining dotted paths -/

theorem splitChars_ne_nil (l : List Char) : splitChars l ≠ [] := by
  cases l with
  | nil => simp [splitChars]
  | cons c rest =>
    by_cases h : c = '.'
    · simp [splitChars, h]
    · simp only [splitChars, if_neg h]
      cases splitChars rest <;> simp

theorem joinChars_splitChars (l : List Char) :
    joinChars (splitChars l) = l := by
  induction l with
  | nil => rfl
  | cons c rest ih =>
    by_cases h : c = '.'
    · subst h
      simp only [splitChars, if_pos rfl]
      cases hr : splitChars rest with
      | nil => exact absurd hr (splitChars_ne_nil rest)
      | cons a t =>
        rw [hr] at ih
        simp [joinChars, ih]
    · simp only [splitChars, if_neg h]
      cases hr : splitChars rest with
      | nil => exact absurd hr (splitChars_ne_nil rest)
      | cons a t =>
        rw [hr] at ih
        cases t with
        | nil => simpa [joinChars] using congrArg (c :: ·) ih
        | cons b t' => simpa [joinChars] using congrArg (c :: ·) ih

theorem splitChars_no_dot {a : List Char} (h : '.' ∉ a) :
    splitChars a = [a] := by
  induction a with
  | nil => rfl
  | cons c t ih =>
    simp only [List.mem_cons] at h
    push_neg at h
    simp [splitChars, Ne.symm h.1, ih h.2]

theorem splitChars_append_dot {a : List Char} (h : '.' ∉ a)
    (l : List Char) :
    splitChars (a ++ '.' :: l) = a :: splitChars l := by
  induction a with
  | nil => simp [splitChars]
  | cons c t ih =>
    simp only [List.mem_cons] at h
    push_neg at h
    simp [splitChars, Ne.symm h.1, ih h.2]

theorem splitChars_joinChars {ls : List (List Char)} (hne : ls ≠ [])
    (hfree : ∀ seg ∈ ls, '.' ∉ seg) :
    splitChars (joinChars ls) = ls := by
  induction ls with
  | nil => exact absurd rfl hne
  | cons a t ih =>
    cases t with
    | nil =>
      simpa [joinChars] using splitChars_no_dot (hfree a (by simp))
    | cons b t' =>
      have hstep : joinChars (a :: b :: t') = a ++ '.' :: joinChars (b :: t') :=
        rfl
      rw [hstep, splitChars_append_dot (hfree a (by simp))]
      rw [ih (by simp) (fun seg hseg => hfree seg (List.mem_cons_of_mem a hseg))]

theorem mem_splitChars_no_dot {l seg : List Char}
    (h : seg ∈ splitChars l) : '.' ∉ seg := by
  induction l generalizing seg with
  | nil =>
    simp only [splitChars, List.mem_singleton] at h
    simp [h]
  | cons c rest ih =>
    by_cases hc : c = '.'
    · subst hc
      simp only [splitChars, if_pos rfl] at h
      cases h with
      | head => simp
      | tail _ h => exact ih h
    · simp only [splitChars, if_neg hc] at h
      cases hr : splitChars rest with
      | nil => exact absurd hr (splitChars_ne_nil rest)
      | cons a t =>
        rw [hr] at h
        cases h with
        | head =>
          intro hmem
          simp only [List.mem_cons] at hmem
          cases hmem with
          | inl hh => exact hc hh.symm
          | inr hmem => exact ih (by rw [hr]; exact List.mem_cons_self a t) hmem
        | tail _ h => exact ih (by rw [hr]; exact List.mem_cons_of_mem a h)

theorem string_mk_data (s : String) : String.mk s.data = s := rfl

theorem data_string_mk (l : List Char) : (String.mk l).data = l := rfl

/-- Joining then splitting restores a non-empty dot-free path. -/
theorem splitDots_joinDots {p : List String} (hne : p ≠ [])
    (hfree : ∀ s ∈ p, DotFree s) : splitDots (joinDots p) = p := by
  unfold splitDots joinDots
  rw [data_string_mk]
  rw [splitChars_joinChars (by simpa using hne)
    (by
      intro seg hseg
      simp only [List.mem_map] at hseg
      obtain ⟨s, hs, rfl⟩ := hseg
      exact hfree s hs)]
  rw [List.map_map]
  exact List.map_id'' (fun s => rfl) p

/-- Splitting then joining restores any dotted string. -/
theorem joinDots_splitDots (s : String) : joinDots (splitDots s) = s := by
  unfold splitDots joinDots
  rw [List.map_map]
  have : (splitChars s.data).map (String.data ∘ String.mk) =
      splitChars s.data := List.map_id'' (fun l => rfl) _
  rw [this, joinChars_splitChars]

theorem splitDots_ne_nil (s : String) : splitDots s ≠ [] := by
  unfold splitDots
  simpa using splitChars_ne_nil s.data

theorem mem_splitDots_dotFree {s : String} {seg : String}
    (h : seg ∈ splitDots s) : DotFree seg := by
  unfold splitDots at h
  simp only [List.mem_map] at h
  obtain ⟨l, hl, rfl⟩ := h
  exact mem_splitChars_no_dot hl

theorem goodPath_iff (p : List String) :
    goodPath p = true ↔ p ≠ [] ∧ ∀ s ∈ p, DotFree s := by
  unfold goodPath
  simp [List.isEmpty_iff, List.all_eq_true]

theorem goodPath_splitDots (s : String) : goodPath (splitDots s) = true := by
  rw [goodPath_iff]
  exact ⟨splitDots_ne_nil s, fun seg hseg => mem_splitDots_dotFree hseg⟩

/-- On good paths, `joinDots` is injective. -/
theorem joinDots_inj {p q : List String} (hp : goodPath p = true)
    (hq : goodPath q = true) (h : joinDots p = joinDots q) : p = q := by
  obtain ⟨hpne, hpf⟩ := (goodPath_iff p).mp hp
  obtain ⟨hqne, hqf⟩ := (goodPath_iff q).mp hq
  rw [← splitDots_joinDots hpne hpf, ← splitDots_joinDots hqne hqf, h]

theorem joinDots_single (s : String) : joinDots [s] = s := rfl

theorem nodupKeys_eraseAL (k : String) {m : List (String × V)}
    (hn : NodupKeys m) : NodupKeys (eraseAL k m) := by
  induction m with
  | nil => simpa [eraseAL] using hn
  | cons e t ih =>
    obtain ⟨k', v'⟩ := e
    have hn' : NodupKeys t := by
      simpa [NodupKeys] using (List.nodup_cons.mp hn).2
    have hnot : k' ∉ t.map Prod.fst := (List.nodup_cons.mp hn).1
    by_cases h : k' = k
    · simpa [eraseAL, h, NodupKeys] using hn'
    · simp only [eraseAL, if_neg h, NodupKeys, List.map_cons,
        List.nodup_cons]
      exact ⟨fun hmem => hnot (keys_eraseAL_subset k t k' hmem), ih hn'⟩

/-! ## Well-formedness and prunedness of tree stores

`WF` states that every children map of the tree has duplicate-free keys
(true of every Go map).  `Pruned` states that every child subtree stores
at least one value — true of every tree built by `Set` alone; deep deletes
violate it by leaving behind empty intermediate nodes. -/

namespace RecursiveMap

mutual

def WF : RecursiveMap V → Prop
  | .node _ cs => (cs.map Prod.fst).Nodup ∧ WFList cs

def WFList : List (String × RecursiveMap V) → Prop
  | [] => True
  | (_, c) :: t => WF c ∧ WFList t

end

mutual

def Pruned : RecursiveMap V → Prop
  | .node _ cs => PrunedList cs

def PrunedList : List (String × RecursiveMap V) → Prop
  | [] => True
  | (_, c) :: t => 0 < c.size ∧ Pruned c ∧ PrunedList t

end

theorem WFList_iff (cs : List (String × RecursiveMap V)) :
    WFList cs ↔ ∀ kc ∈ cs, WF kc.2 := by
  induction cs with
  | nil => simp [WFList]
  | cons e t ih =>
    obtain ⟨k, c⟩ := e
    simp [WFList, ih]

theorem PrunedList_iff (cs : List (String × RecursiveMap V)) :
    PrunedList cs ↔ ∀ kc ∈ cs, 0 < kc.2.size ∧ Pruned kc.2 := by
  induction cs with
  | nil => simp [PrunedList]
  | cons e t ih =>
    obtain ⟨k, c⟩ := e
    simp only [PrunedList, ih, List.mem_cons]
    constructor
    · rintro ⟨h1, h2, h3⟩ kc hkc
      rcases hkc with rfl | hkc
      · exact ⟨h1, h2⟩
      · exact h3 kc hkc
    · intro h
      exact ⟨(h _ (Or.inl rfl)).1, (h _ (Or.inl rfl)).2,
        fun kc hkc => h kc (Or.inr hkc)⟩

theorem WF_new : WF (new : RecursiveMap V) := by
  constructor <;> simp [WFList]

theorem Pruned_new : Pruned (new : RecursiveMap V) := by
  simp [Pruned, new, PrunedList]

/-! ### Children-list lemmas -/

theorem getChild_setChild_self (k : String) (c : RecursiveMap V)
    (cs : List (String × RecursiveMap V)) :
    getChild k (setChild k c cs) = some c := by
  induction cs with
  | nil => simp [setChild, getChild]
  | cons e t ih =>
    obtain ⟨k', c'⟩ := e
    by_cases h : k' = k
    · simp [setChild, h, getChild]
    · simp [setChild, h, getChild, ih]

theorem getChild_setChild_ne {k k' : String} (h : k' ≠ k)
    (c : RecursiveMap V) (cs : List (String × RecursiveMap V)) :
    getChild k' (setChild k c cs) = getChild k' cs := by
  induction cs with
  | nil => simp [setChild, getChild, Ne.symm h]
  | cons e t ih =>
    obtain ⟨k'', c'⟩ := e
    by_cases hk : k'' = k
    · subst hk
      simp [setChild, getChild, Ne.symm h]
    · simp [setChild, hk, getChild, ih]

theorem getChild_eq_none_of_not_mem {k : String}
    {cs : List (String × RecursiveMap V)} (h : k ∉ cs.map Prod.fst) :
    getChild k cs = none := by
  induction cs with
  | nil => rfl
  | cons e t ih =>
    obtain ⟨k', c'⟩ := e
    simp only [List.map_cons, List.mem_cons] at h
    push_neg at h
    simp [getChild, Ne.symm h.1, ih h.2]

theorem getChild_eraseChild_self {cs : List (String × RecursiveMap V)}
    (hn : (cs.map Prod.fst).Nodup) (k : String) :
    getChild k (eraseChild k cs) = none := by
  induction cs with
  | nil => rfl
  | cons e t ih =>
    obtain ⟨k', c'⟩ := e
    have hn' : (t.map Prod.fst).Nodup := (List.nodup_cons.mp hn).2
    have hnot : k' ∉ t.map Prod.fst := (List.nodup_cons.mp hn).1
    by_cases h : k' = k
    · subst h
      simp only [eraseChild, if_pos rfl]
      exact getChild_eq_none_of_not_mem hnot
    · simp [eraseChild, h, getChild, ih hn']

theorem getChild_eraseChild_ne {k k' : String} (h : k' ≠ k)
    (cs : List (String × RecursiveMap V)) :
    getChild k' (eraseChild k cs) = getChild k' cs := by
  induction cs with
  | nil => simp [eraseChild]
  | cons e t ih =>
    obtain ⟨k'', c'⟩ := e
    by_cases hk : k'' = k
    · subst hk
      simp [eraseChild, getChild, Ne.symm h]
    · simp [eraseChild, hk, getChild, ih]

theorem sizeList_setChild_some {k : String} {c0 : RecursiveMap V}
    {cs : List (String × RecursiveMap V)} (h : getChild k cs = some c0)
    (c : RecursiveMap V) :
    sizeList (setChild k c cs) + c0.size = sizeList cs + c.size := by
  induction cs with
  | nil => simp [getChild] at h
  | cons e t ih =>
    obtain ⟨k', c'⟩ := e
    by_cases hk : k' = k
    · simp only [getChild, if_pos hk] at h
      cases h
      simp only [setChild, if_pos hk, sizeList]
      omega
    · simp only [getChild, if_neg hk] at h
      simp only [setChild, if_neg hk, sizeList]
      have := ih h
      omega

theorem sizeList_setChild_none {k : String}
    {cs : List (String × RecursiveMap V)} (h : getChild k cs = none)
    (c : RecursiveMap V) :
    sizeList (setChild k c cs) = sizeList cs + c.size := by
  induction cs with
  | nil => simp [setChild, sizeList]
  | cons e t ih =>
    obtain ⟨k', c'⟩ := e
    by_cases hk : k' = k
    · simp [getChild, hk] at h
    · simp only [getChild, if_neg hk] at h
      simp only [setChild, if_neg hk, sizeList]
      have := ih h
      omega

theorem sizeList_eraseChild {k : String} {c0 : RecursiveMap V}
    {cs : List (String × RecursiveMap V)} (h : getChild k cs = some c0) :
    sizeList (eraseChild k cs) + c0.size = sizeList cs := by
  induction cs with
  | nil => simp [getChild] at h
  | cons e t ih =>
    obtain ⟨k', c'⟩ := e
    by_cases hk : k' = k
    · simp only [getChild, if_pos hk] at h
      cases h
      simp only [eraseChild, if_pos hk, sizeList]
      omega
    · simp only [getChild, if_neg hk] at h
      simp only [eraseChild, if_neg hk, sizeList]
      have := ih h
      omega

theorem sizeList_ge_of_getChild {k : String} {c : RecursiveMap V}
    {cs : List (String × RecursiveMap V)} (h : getChild k cs = some c) :
    c.size ≤ sizeList cs := by
  induction cs with
  | nil => simp [getChild] at h
  | cons e t ih =>
    obtain ⟨k', c'⟩ := e
    by_cases hk : k' = k
    · simp only [getChild, if_pos hk] at h
      cases h
      simp only [sizeList]
      omega
    · simp only [getChild, if_neg hk] at h
      simp only [sizeList]
      have := ih h
      omega

theorem mem_setChild {k : String} {c : RecursiveMap V}
    {cs : List (String × RecursiveMap V)} {kc : String × RecursiveMap V}
    (h : kc ∈ setChild k c cs) : kc = (k, c) ∨ kc ∈ cs := by
  induction cs with
  | nil => simpa [setChild] using h
  | cons e t ih =>
    obtain ⟨k', c'⟩ := e
    by_cases hk : k' = k
    · simp only [setChild, if_pos hk, List.mem_cons] at h
      rcases h with rfl | h
      · exact Or.inl rfl
      · exact Or.inr (List.mem_cons_of_mem _ h)
    · simp only [setChild, if_neg hk, List.mem_cons] at h
      rcases h with rfl | h
      · exact Or.inr (List.mem_cons_self _ _)
      · rcases ih h with h' | h'
        · exact Or.inl h'
        · exact Or.inr (List.mem_cons_of_mem _ h')

theorem mem_eraseChild {k : String}
    {cs : List (String × RecursiveMap V)} {kc : String × RecursiveMap V}
    (h : kc ∈ eraseChild k cs) : kc ∈ cs := by
  induction cs with
  | nil => simpa [eraseChild] using h
  | cons e t ih =>
    obtain ⟨k', c'⟩ := e
    by_cases hk : k' = k
    · simp only [eraseChild, if_pos hk] at h
      exact List.mem_cons_of_mem _ h
    · simp only [eraseChild, if_neg hk, List.mem_cons] at h
      rcases h with rfl | h
      · exact List.mem_cons_self _ _
      · exact List.mem_cons_of_mem _ (ih h)

theorem keys_setChild (k : String) (c : RecursiveMap V)
    (cs : List (String × RecursiveMap V)) :
    (setChild k c cs).map Prod.fst =
      if (getChild k cs).isSome then cs.map Prod.fst
      else cs.map Prod.fst ++ [k] := by
  induction cs with
  | nil => simp [setChild, getChild]
  | cons e t ih =>
    obtain ⟨k', c'⟩ := e
    by_cases hk : k' = k
    · simp [setChild, hk, getChild]
    · simp only [setChild, if_neg hk, getChild, List.map_cons]
      by_cases hc : (getChild k t).isSome
      · simp [hk, hc, ih]
      · simp [hk, hc, ih]

theorem keys_eraseChild_subset (k : String)
    (cs : List (String × RecursiveMap V)) :
    ∀ a, a ∈ (eraseChild k cs).map Prod.fst → a ∈ cs.map Prod.fst := by
  intro a ha
  simp only [List.mem_map] at ha ⊢
  obtain ⟨kc, hkc, rfl⟩ := ha
  exact ⟨kc, mem_eraseChild hkc, rfl⟩

theorem getChild_isSome_of_mem {k : String}
    {cs : List (String × RecursiveMap V)} (h : k ∈ cs.map Prod.fst) :
    (getChild k cs).isSome := by
  induction cs with
  | nil => simp at h
  | cons e t ih =>
    obtain ⟨k', c'⟩ := e
    by_cases hk : k' = k
    · simp [getChild, hk]
    · simp only [List.map_cons, List.mem_cons] at h
      rcases h with rfl | h
      · exact absurd rfl hk
      · simp [getChild, hk, ih h]

theorem nodup_keys_setChild (k : String) (c : RecursiveMap V)
    {cs : List (String × RecursiveMap V)}
    (hn : (cs.map Prod.fst).Nodup) :
    ((setChild k c cs).map Prod.fst).Nodup := by
  rw [keys_setChild]
  by_cases hc : (getChild k cs).isSome
  · simpa [hc] using hn
  · rw [if_neg hc, List.nodup_append]
    refine ⟨hn, List.nodup_singleton k, ?_⟩
    intro a ha hb
    simp only [List.mem_singleton] at hb
    subst hb
    exact hc (getChild_isSome_of_mem ha)

theorem nodup_keys_eraseChild (k : String)
    {cs : List (String × RecursiveMap V)}
    (hn : (cs.map Prod.fst).Nodup) :
    ((eraseChild k cs).map Prod.fst).Nodup := by
  induction cs with
  | nil => simpa [eraseChild] using hn
  | cons e t ih =>
    obtain ⟨k', c'⟩ := e
    have hn' : (t.map Prod.fst).Nodup := (List.nodup_cons.mp hn).2
    have hnot : k' ∉ t.map Prod.fst := (List.nodup_cons.mp hn).1
    by_cases h : k' = k
    · simpa [eraseChild, h] using hn'
    · simp only [eraseChild, if_neg h, List.map_cons, List.nodup_cons]
      exact ⟨fun hmem => hnot (keys_eraseChild_subset k t k' hmem), ih hn'⟩


theorem mem_of_getChild {k : String} {c : RecursiveMap V}
    {cs : List (String × RecursiveMap V)} (h : getChild k cs = some c) :
    (k, c) ∈ cs := by
  induction cs with
  | nil => simp [getChild] at h
  | cons e t ih =>
    obtain ⟨k', c'⟩ := e
    by_cases hk : k' = k
    · subst hk
      simp only [getChild, if_pos rfl] at h
      cases h
      exact List.mem_cons_self _ _
    · simp only [getChild, if_neg hk] at h
      exact List.mem_cons_of_mem _ (ih h)

theorem prunedList_sizeList_pos {cs : List (String × RecursiveMap V)}
    (hp : PrunedList cs) (hne : cs ≠ []) : 0 < sizeList cs := by
  cases cs with
  | nil => exact absurd rfl hne
  | cons e t =>
    obtain ⟨k, c⟩ := e
    simp only [PrunedList] at hp
    simp only [sizeList]
    omega

/-! ### Get, set, size and delete on trees -/

theorem get_new (q : List String) : (new : RecursiveMap V).get q = none := by
  cases q <;> rfl

theorem size_new : (new : RecursiveMap V).size = 0 := rfl

theorem get_set (p : List String) (v : V) :
    ∀ (rm : RecursiveMap V) (q : List String),
    (rm.set p v).get q = if q = p then some v else rm.get q := by
  induction p with
  | nil =>
    intro rm q
    cases rm with
    | node val cs =>
      cases q with
      | nil => simp [set, get]
      | cons k t => simp [set, get]
  | cons k rest ih =>
    intro rm q
    cases rm with
    | node val cs =>
      cases q with
      | nil => simp [set, get]
      | cons k' t =>
        by_cases hk : k' = k
        · subst hk
          simp only [set, get, getChild_setChild_self]
          rw [ih]
          cases hc : getChild k' cs with
          | none =>
            simp only [Option.getD]
            by_cases ht : t = rest
            · simp [ht]
            · simp [ht, get_new]
          | some c0 =>
            simp only [Option.getD]
            by_cases ht : t = rest
            · simp [ht]
            · simp [ht]
        · simp only [set, get, getChild_setChild_ne hk]
          rw [if_neg (by simp [hk])]

theorem size_pos_of_get_isSome {p : List String} :
    ∀ {rm : RecursiveMap V}, (rm.get p).isSome → 0 < rm.size := by
  induction p with
  | nil =>
    intro rm h
    cases rm with
    | node val cs =>
      simp only [get] at h
      simp only [size]
      cases val with
      | none => simp at h
      | some w => simp only [Option.isSome_some, if_true]; omega
  | cons k rest ih =>
    intro rm h
    cases rm with
    | node val cs =>
      simp only [get] at h
      cases hc : getChild k cs with
      | none => rw [hc] at h; simp at h
      | some c =>
        rw [hc] at h
        have h1 : 0 < c.size := ih h
        have h2 := sizeList_ge_of_getChild hc
        simp only [size]
        omega

theorem size_set (p : List String) (v : V) :
    ∀ rm : RecursiveMap V,
    (rm.set p v).size = rm.size + (if (rm.get p).isSome then 0 else 1) := by
  induction p with
  | nil =>
    intro rm
    cases rm with
    | node val cs => cases val <;> simp [set, get, size] <;> omega
  | cons k rest ih =>
    intro rm
    cases rm with
    | node val cs =>
      cases hc : getChild k cs with
      | none =>
        simp only [set, get, size, hc, Option.getD_none]
        rw [sizeList_setChild_none hc]
        have hnew := ih new
        rw [get_new, size_new] at hnew
        simp only [Option.isSome_none, Bool.false_eq_true, if_false] at hnew
        rw [hnew]
        simp only [Option.isSome_none, Bool.false_eq_true, if_false]
        omega
      | some c0 =>
        simp only [set, get, size, hc, Option.getD_some]
        have hs := sizeList_setChild_some hc (c0.set rest v)
        have hrec := ih c0
        cases hg : (c0.get rest).isSome <;> simp [hg] at hrec ⊢ <;> omega

theorem size_set_pos (p : List String) (v : V) (rm : RecursiveMap V) :
    0 < (rm.set p v).size := by
  rw [size_set]
  cases hg : (rm.get p).isSome
  · simp
  · have := @size_pos_of_get_isSome V p rm hg
    omega

theorem rootVal_set {p : List String} (hne : p ≠ []) (v : V)
    (rm : RecursiveMap V) : (rm.set p v).rootVal = rm.rootVal := by
  cases p with
  | nil => exact absurd rfl hne
  | cons k rest => cases rm with | node val cs => rfl

theorem WF_set (p : List String) (v : V) :
    ∀ rm : RecursiveMap V, WF rm → WF (rm.set p v) := by
  induction p with
  | nil =>
    intro rm h
    cases rm with
    | node val cs => simpa [set, WF] using h
  | cons k rest ih =>
    intro rm h
    cases rm with
    | node val cs =>
      simp only [set, WF] at h ⊢
      obtain ⟨hn, hl⟩ := h
      refine ⟨nodup_keys_setChild k _ hn, ?_⟩
      rw [WFList_iff]
      intro kc hkc
      rcases mem_setChild hkc with rfl | hmem
      · cases hc : getChild k cs with
        | none => simp only [hc, Option.getD]; exact ih new WF_new
        | some c0 =>
          simp only [hc, Option.getD]
          exact ih c0 ((WFList_iff cs).mp hl _ (mem_of_getChild hc))
      · exact (WFList_iff cs).mp hl kc hmem

theorem Pruned_set (p : List String) (v : V) :
    ∀ rm : RecursiveMap V, Pruned rm → Pruned (rm.set p v) := by
  induction p with
  | nil =>
    intro rm h
    cases rm with
    | node val cs => simpa [set, Pruned] using h
  | cons k rest ih =>
    intro rm h
    cases rm with
    | node val cs =>
      simp only [set, Pruned] at h ⊢
      rw [PrunedList_iff] at h ⊢
      intro kc hkc
      rcases mem_setChild hkc with rfl | hmem
      · refine ⟨size_set_pos rest v _, ?_⟩
        cases hc : getChild k cs with
        | none => simp only [hc, Option.getD]; exact ih new Pruned_new
        | some c0 =>
          simp only [hc, Option.getD]
          exact ih c0 (h _ (mem_of_getChild hc)).2
      · exact h kc hmem

theorem get_single (k : String) (val : Option V)
    (cs : List (String × RecursiveMap V)) :
    (RecursiveMap.node val cs).get [k] =
      match getChild k cs with
      | none => none
      | some c => c.rootVal := by
  cases hc : getChild k cs with
  | none => simp [get, hc]
  | some c => cases c with | node w ccs => simp [get, hc, rootVal]

/-- Full characterization of a present single-segment delete: it reports
a removal, keeps the root value, removes exactly the target key,
decrements the value count by one, and preserves well-formedness and
prunedness. -/
theorem delete_single (k : String) (rm : RecursiveMap V) (hwf : WF rm)
    (hpr : Pruned rm) (hp : (rm.get [k]).isSome) :
    (rm.delete [k]).1 = true ∧
    (rm.delete [k]).2.rootVal = rm.rootVal ∧
    (∀ q, (rm.delete [k]).2.get q = if q = [k] then none else rm.get q) ∧
    (rm.delete [k]).2.size + 1 = rm.size ∧
    WF (rm.delete [k]).2 ∧ Pruned (rm.delete [k]).2 := by
  cases rm with
  | node val cs =>
    rw [get_single] at hp
    cases hc : getChild k cs with
    | none => rw [hc] at hp; simp at hp
    | some child =>
      rw [hc] at hp
      cases child with
      | node cval ccs =>
        simp only [rootVal] at hp
        cases cval with
        | none => simp at hp
        | some w =>
          obtain ⟨hn, hl⟩ := hwf
          have hplist := (PrunedList_iff cs).mp hpr
          have hwlist := (WFList_iff cs).mp hl
          cases ccs with
          | nil =>
            have hred : (RecursiveMap.node val cs).delete [k] =
                (true, RecursiveMap.node val (eraseChild k cs)) := by
              simp [delete, hc, children]
            rw [hred]
            refine ⟨rfl, rfl, ?_, ?_, ?_, ?_⟩
            · intro q
              cases q with
              | nil => simp [get]
              | cons k' t =>
                by_cases hk : k' = k
                · subst hk
                  cases t with
                  | nil =>
                    simp [get, getChild_eraseChild_self hn]
                  | cons t0 t' =>
                    rw [if_neg (by simp)]
                    simp only [get, getChild_eraseChild_self hn, hc]
                    simp [getChild]
                · rw [if_neg (by simp [hk])]
                  simp [get, getChild_eraseChild_ne hk, hc]
            · have := sizeList_eraseChild hc
              simp [size, sizeList] at this ⊢
              omega
            · refine ⟨nodup_keys_eraseChild k hn, ?_⟩
              rw [WFList_iff]
              intro kc hkc
              exact hwlist kc (mem_eraseChild hkc)
            · simp only [Pruned]
              rw [PrunedList_iff]
              intro kc hkc
              exact hplist kc (mem_eraseChild hkc)
          | cons e0 ct =>
            have hred : (RecursiveMap.node val cs).delete [k] =
                (true, RecursiveMap.node val
                  (setChild k (RecursiveMap.node none (e0 :: ct)) cs)) := by
              simp [delete, hc, children]
            rw [hred]
            have hchildwf : WF (RecursiveMap.node (some w) (e0 :: ct)) :=
              hwlist _ (mem_of_getChild hc)
            have hchildpr : Pruned (RecursiveMap.node (some w) (e0 :: ct)) :=
              (hplist _ (mem_of_getChild hc)).2
            refine ⟨rfl, rfl, ?_, ?_, ?_, ?_⟩
            · intro q
              cases q with
              | nil => simp [get]
              | cons k' t =>
                by_cases hk : k' = k
                · subst hk
                  simp only [get, getChild_setChild_self, hc]
                  cases t with
                  | nil => simp [get]
                  | cons t0 t' =>
                    rw [if_neg (by simp)]
                    simp [get]
                · rw [if_neg (by simp [hk])]
                  simp [get, getChild_setChild_ne hk]
            · have := sizeList_setChild_some hc
                (RecursiveMap.node none (e0 :: ct))
              simp [size] at this ⊢
              omega
            · refine ⟨nodup_keys_setChild k _ hn, ?_⟩
              rw [WFList_iff]
              intro kc hkc
              rcases mem_setChild hkc with rfl | hmem
              · obtain ⟨hcn, hcl⟩ := hchildwf
                exact ⟨hcn, hcl⟩
              · exact hwlist kc hmem
            · simp only [Pruned]
              rw [PrunedList_iff]
              intro kc hkc
              rcases mem_setChild hkc with rfl | hmem
              · constructor
                · simp only [Pruned] at hchildpr
                  have := prunedList_sizeList_pos hchildpr (by simp)
                  simp only [size]
                  omega
                · simpa [Pruned] using hchildpr
              · exact hplist kc hmem

theorem isEmpty_eq_size {rm : RecursiveMap V} (hpr : Pruned rm)
    (hr : rm.rootVal = none) : rm.isEmpty = decide (rm.size = 0) := by
  cases rm with
  | node val cs =>
    simp only [rootVal] at hr
    subst hr
    cases cs with
    | nil => simp [isEmpty, rootVal, children, size, sizeList]
    | cons e t =>
      obtain ⟨k, c⟩ := e
      simp only [Pruned, PrunedList] at hpr
      simp only [isEmpty, rootVal, children, size, sizeList]
      have : 0 < c.size := hpr.1
      simp only [Option.isSome_none]
      rw [decide_eq_false (by omega)]
      simp

end RecursiveMap

/-! ## Simulation between the tree store and the flat store -/

/-- Lookup on a flat store with empty inline tier and allocated map. -/
theorem FlatAttributes.getByDot_mk (m : List (String × V)) (s : String) :
    FlatAttributes.getByDotNotation ⟨some m, []⟩ s = lookupAL s m := by
  simp [FlatAttributes.getByDotNotation, lookupAL]

/-- The coupling invariant: the tree holds no root value, all its children
maps are duplicate-free, every child subtree stores a value, the flat map
has duplicate-free keys, lookups agree along dotted keys, and the value
counts agree. -/
structure SimInv (rm : RecursiveMap V) (m : List (String × V)) : Prop where
  wf : rm.WF
  pruned : rm.Pruned
  root : rm.rootVal = none
  nodup : NodupKeys m
  geteq : ∀ p, goodPath p = true → rm.get p = lookupAL (joinDots p) m
  sizeeq : rm.size = m.length

theorem SimInv.initial : SimInv (RecursiveMap.new : RecursiveMap V) [] := by
  refine ⟨RecursiveMap.WF_new, RecursiveMap.Pruned_new, rfl, by simp [NodupKeys], ?_, rfl⟩
  intro p hp
  rw [RecursiveMap.get_new]
  rfl

theorem goodPath_single_of {k : String} (hf : DotFree k) :
    goodPath [k] = true := by
  rw [goodPath_iff]
  exact ⟨by simp, by simpa using hf⟩

/-- Writing a dotted key preserves the invariant. -/
theorem SimInv.insert {rm : RecursiveMap V} {m : List (String × V)}
    (h : SimInv rm m) {p : List String} (hp : goodPath p = true) (v : V) :
    SimInv (rm.set p v) (insertAL (joinDots p) v m) := by
  obtain ⟨hpne, hpf⟩ := (goodPath_iff p).mp hp
  refine ⟨RecursiveMap.WF_set p v rm h.wf, RecursiveMap.Pruned_set p v rm h.pruned,
    by rw [RecursiveMap.rootVal_set hpne]; exact h.root,
    nodupKeys_insertAL _ v h.nodup, ?_, ?_⟩
  · intro q hq
    rw [RecursiveMap.get_set]
    by_cases hqp : q = p
    · subst hqp
      rw [if_pos rfl, lookupAL_insertAL_self]
    · rw [if_neg hqp, lookupAL_insertAL_ne (fun hj => hqp (joinDots_inj hq hp hj)),
        h.geteq q hq]
  · rw [RecursiveMap.size_set, length_insertAL, h.geteq p hp, h.sizeeq]
    by_cases hc : containsAL (joinDots p) m = true
    · have hc' := hc
      simp only [containsAL] at hc'
      simp [containsAL, hc, hc']
    · have hc' := hc
      simp only [containsAL, Bool.not_eq_true] at hc'
      simp [containsAL, hc', hc]

/-- One valid operation produces the same observation on both stores and
re-establishes the invariant. -/
theorem sim_step {rm : RecursiveMap V} {m : List (String × V)}
    (h : SimInv rm m) (op : StoreOp V)
    (hv : opValid ⟨some m, []⟩ op = true) :
    (stepRM rm op).1 = (stepFA (⟨some m, []⟩ : FlatAttributes V) op).1 ∧
    ∃ m', (stepFA (⟨some m, []⟩ : FlatAttributes V) op).2 = ⟨some m', []⟩ ∧
      SimInv (stepRM rm op).2 m' := by
  cases op with
  | setPath p v =>
    simp only [opValid] at hv
    obtain ⟨hpne, _⟩ := (goodPath_iff p).mp hv
    refine ⟨rfl, insertAL (joinDots p) v m, ?_, ?_⟩
    · simp [stepFA, FlatAttributes.set, hpne, FlatAttributes.setByDotNotation]
    · exact h.insert hv v
  | setDot s v =>
    refine ⟨rfl, insertAL s v m, ?_, ?_⟩
    · simp [stepFA, FlatAttributes.setByDotNotation]
    · have := h.insert (goodPath_splitDots s) v
      rw [joinDots_splitDots] at this
      exact this
  | getPath p =>
    simp only [opValid] at hv
    refine ⟨?_, m, rfl, h⟩
    simp only [stepRM, stepFA, FlatAttributes.get, FlatAttributes.getByDot_mk]
    rw [h.geteq p hv]
  | getDot s =>
    refine ⟨?_, m, rfl, h⟩
    simp only [stepRM, stepFA, FlatAttributes.getByDot_mk,
      RecursiveMap.getByDotNotation]
    rw [h.geteq (splitDots s) (goodPath_splitDots s), joinDots_splitDots]
  | hasPath p =>
    simp only [opValid] at hv
    refine ⟨?_, m, rfl, h⟩
    simp only [stepRM, stepFA, RecursiveMap.has, FlatAttributes.has,
      FlatAttributes.get, FlatAttributes.getByDot_mk]
    rw [h.geteq p hv]
  | delPath p =>
    simp only [opValid, Bool.and_eq_true] at hv
    obtain ⟨⟨hgood, hlen⟩, hhas⟩ := hv
    have hp1 : p.length = 1 := by simpa using hlen
    obtain ⟨k, rfl⟩ : ∃ k, p = [k] := by
      cases p with
      | nil => simp at hp1
      | cons k t =>
        cases t with
        | nil => exact ⟨k, rfl⟩
        | cons a b => simp at hp1
    have hfree : DotFree k := by
      obtain ⟨-, hall⟩ := (goodPath_iff [k]).mp hgood
      exact hall k (by simp)
    have hjoin : joinDots [k] = k := joinDots_single k
    have hlook : (lookupAL k m).isSome = true := by
      have := hhas
      simp only [FlatAttributes.has, FlatAttributes.get,
        FlatAttributes.getByDot_mk, hjoin] at this
      exact this
    have hpresent : (rm.get [k]).isSome = true := by
      rw [h.geteq [k] hgood, hjoin]
      exact hlook
    obtain ⟨hflag, hroot, hget, hsize, hwf, hpr⟩ :=
      RecursiveMap.delete_single k rm h.wf h.pruned hpresent
    have hfa : FlatAttributes.delete (⟨some m, []⟩ : FlatAttributes V) [k] =
        (true, ⟨some (eraseAL k m), []⟩) := by
      simp [FlatAttributes.delete, FlatAttributes.deleteByDotNotation, hjoin,
        containsAL, hlook]
    refine ⟨?_, eraseAL k m, ?_, ?_⟩
    · simp only [stepRM, stepFA, hfa, hflag]
    · simp only [stepFA, hfa]
    · simp only [stepRM]
      refine ⟨hwf, hpr, by rw [hroot]; exact h.root,
        nodupKeys_eraseAL k h.nodup, ?_, ?_⟩
      · intro q hq
        rw [hget q]
        by_cases hqk : q = [k]
        · subst hqk
          rw [if_pos rfl, hjoin, lookupAL_eraseAL_self h.nodup]
        · rw [if_neg hqk]
          have hne : joinDots q ≠ k := by
            intro hj
            exact hqk (joinDots_inj hq (goodPath_single_of hfree)
              (by rw [hjoin, hj]))
          rw [lookupAL_eraseAL_ne hne, h.geteq q hq]
      · have hlen' := @length_eraseAL_contains V m k
          (by simpa [containsAL] using hlook)
        have := h.sizeeq
        omega
  | sizeQ =>
    refine ⟨?_, m, rfl, h⟩
    simp only [stepRM, stepFA, FlatAttributes.size]
    rw [h.sizeeq]
    simp
  | emptyQ =>
    refine ⟨?_, m, rfl, h⟩
    simp only [stepRM, stepFA, FlatAttributes.isEmpty, FlatAttributes.size]
    rw [RecursiveMap.isEmpty_eq_size h.pruned h.root, h.sizeeq]
    simp

/-- Valid call sequences are observationally equal from related states. -/
theorem sim_run : ∀ (ops : List (StoreOp V)) (rm : RecursiveMap V)
    (m : List (String × V)), SimInv rm m →
    validOps ⟨some m, []⟩ ops = true →
    runRM rm ops = runFA ⟨some m, []⟩ ops := by
  intro ops
  induction ops with
  | nil => intro rm m h hv; rfl
  | cons op rest ih =>
    intro rm m h hv
    simp only [validOps, Bool.and_eq_true] at hv
    obtain ⟨hop, hrest⟩ := hv
    obtain ⟨hobs, m', hfa, hinv⟩ := sim_step h op hop
    simp only [runRM, runFA]
    rw [hfa] at hrest
    rw [hobs, hfa, ih _ _ hinv hrest]


/-! ## Remaining helper lemmas -/

theorem FlatAttributes.getByDot_setByDot_isSome {V : Type u}
    (f : FlatAttributes V) (k : String) (v : V) :
    ((f.setByDotNotation k v).getByDotNotation k).isSome = true := by
  unfold FlatAttributes.setByDotNotation FlatAttributes.getByDotNotation
  cases hs : lookupAL k f.small with
  | some w => simp [hs]
  | none => simp [hs, lookupAL_insertAL_self]

theorem FlatAttributes.size_reset {V : Type u} (f : FlatAttributes V) :
    f.reset.size = 0 := by
  cases f with
  | mk d s => cases d <;> simp [FlatAttributes.reset, FlatAttributes.size]

/-! ## The claims -/

/-- C1, counterexample: the two stores are not observationally equal over
the shared operations.  Four diverging call sequences: a zero-segment
write (the tree stores a root value, the flat store drops it), a segment
containing the delimiter (flat joins it verbatim, the tree keeps it as one
segment while the dotted read splits), a delete of an absent key whose
tree node survives as an empty shell (tree reports a removal, flat does
not), and an isEmpty after a deep delete (the shell keeps the tree
non-empty). -/
theorem C1_counterexample :
    (runRM RecursiveMap.new [StoreOp.setPath [] (0 : Nat), StoreOp.getPath []] ≠
      runFA FlatAttributes.new [StoreOp.setPath [] (0 : Nat), StoreOp.getPath []]) ∧
    (runRM RecursiveMap.new
        [StoreOp.setPath ["a.b"] (0 : Nat), StoreOp.getDot "a.b"] ≠
      runFA FlatAttributes.new
        [StoreOp.setPath ["a.b"] (0 : Nat), StoreOp.getDot "a.b"]) ∧
    (runRM RecursiveMap.new [StoreOp.setPath ["a", "b"] (0 : Nat),
        StoreOp.delPath ["a", "b"], StoreOp.delPath ["a"]] ≠
      runFA FlatAttributes.new [StoreOp.setPath ["a", "b"] (0 : Nat),
        StoreOp.delPath ["a", "b"], StoreOp.delPath ["a"]]) ∧
    (runRM RecursiveMap.new [StoreOp.setPath ["a", "b"] (0 : Nat),
        StoreOp.delPath ["a", "b"], StoreOp.emptyQ] ≠
      runFA FlatAttributes.new [StoreOp.setPath ["a", "b"] (0 : Nat),
        StoreOp.delPath ["a", "b"], StoreOp.emptyQ]) :=
  ⟨by decide, by decide, by decide, by decide⟩

/-- C1 (amended): the tree store and the flat store yield identical
observation sequences for every call sequence in which explicit segment
paths are non-empty with dot-free segments and every delete targets a
currently present single-segment key; dotted-string reads and writes,
size and isEmpty are unrestricted. -/
theorem C1_store_equivalence {V : Type u} (ops : List (StoreOp V))
    (hv : validOps FlatAttributes.new ops = true) :
    runRM RecursiveMap.new ops = runFA FlatAttributes.new ops :=
  sim_run ops RecursiveMap.new [] SimInv.initial hv

/-- Witness for C1: a concrete valid sequence exercising every operation,
with the equivalence instantiated on it. -/
theorem C1_store_equivalence_witness :
    validOps FlatAttributes.new
      [StoreOp.setDot "a.b" (1 : Nat), StoreOp.getPath ["a", "b"],
        StoreOp.setPath ["c"] 2, StoreOp.sizeQ, StoreOp.delPath ["c"],
        StoreOp.hasPath ["c"], StoreOp.emptyQ, StoreOp.getDot ""] = true ∧
    runRM RecursiveMap.new
      [StoreOp.setDot "a.b" (1 : Nat), StoreOp.getPath ["a", "b"],
        StoreOp.setPath ["c"] 2, StoreOp.sizeQ, StoreOp.delPath ["c"],
        StoreOp.hasPath ["c"], StoreOp.emptyQ, StoreOp.getDot ""] =
    runFA FlatAttributes.new
      [StoreOp.setDot "a.b" (1 : Nat), StoreOp.getPath ["a", "b"],
        StoreOp.setPath ["c"] 2, StoreOp.sizeQ, StoreOp.delPath ["c"],
        StoreOp.hasPath ["c"], StoreOp.emptyQ, StoreOp.getDot ""] :=
  ⟨by decide, C1_store_equivalence _ (by decide)⟩

/-- C2, counterexample: on a zero-value store whose inline tier already
holds the key (written by `SetFast`), `Set` writes the map tier but `Get`
answers from the inline tier first, so set-then-get does not return the
written value. -/
theorem C2_counterexample :
    ((FlatAttributes.zero.setFast "k" (1 : Nat)).set ["k"] 2).get ["k"] =
      some 1 ∧
    ((FlatAttributes.zero.setFast "k" (1 : Nat)).set ["k"] 2).get ["k"] ≠
      some 2 :=
  ⟨by decide, by decide⟩

/-- C2 (amended): set-then-get returns the written value on every store
whose inline tier does not already hold the joined key — in particular on
every store built by `NewFlatAttributes`, whose inline tier is never
populated. -/
theorem C2_set_get_roundtrip {V : Type u} (f : FlatAttributes V)
    (p : List String) (v : V) (hp : p ≠ [])
    (hsmall : lookupAL (joinDots p) f.small = none) :
    (f.set p v).get p = some v := by
  unfold FlatAttributes.set
  rw [if_neg hp]
  unfold FlatAttributes.setByDotNotation FlatAttributes.get
    FlatAttributes.getByDotNotation
  simp [hsmall, lookupAL_insertAL_self]

/-- Witness for C2 at a concrete store, path and value. -/
theorem C2_set_get_roundtrip_witness :
    ((FlatAttributes.new : FlatAttributes Nat).set ["user", "profile", "name"] 42).get
      ["user", "profile", "name"] = some 42 :=
  C2_set_get_roundtrip FlatAttributes.new ["user", "profile", "name"] 42
    (by decide) (by decide)

/-- C3: last write does not always win.  On a zero-value store, a
`SetFast` write lands in the inline tier; a later `SetByDotNotation` of
the same key writes the map tier without migrating or clearing the inline
entry, and `GetByDotNotation` then returns the stale first write. -/
theorem C3_last_write_loses :
    ((FlatAttributes.zero.setFast "k" (1 : Nat)).setByDotNotation
      "k" 2).getByDotNotation "k" = some 1 ∧
    ((FlatAttributes.zero.setFast "k" (1 : Nat)).setByDotNotation
      "k" 2).getByDotNotation "k" ≠ some 2 :=
  ⟨by decide, by decide⟩

/-- C4: `Clone` copies only the map tier.  A store whose single entry
lives in the inline tier clones to an empty store, so the clone does not
contain the source's key/value pairs. -/
theorem C4_clone_drops_inline_tier :
    (FlatAttributes.zero.setFast "k" (1 : Nat)).size = 1 ∧
    (FlatAttributes.zero.setFast "k" (1 : Nat)).getByDotNotation "k" =
      some 1 ∧
    (FlatAttributes.zero.setFast "k" (1 : Nat)).clone.size = 0 ∧
    (FlatAttributes.zero.setFast "k" (1 : Nat)).clone.getByDotNotation "k" =
      none :=
  ⟨by decide, by decide, by decide, by decide⟩

/-- C5: `Merge` reads only the map tier of the other store.  Merging a
non-empty store B whose single entry lives in its inline tier leaves A
without B's key, so A does not end up containing every key of B. -/
theorem C5_merge_drops_inline_tier :
    ((FlatAttributes.new : FlatAttributes Nat).merge
      (FlatAttributes.zero.setFast "k" 1)).getByDotNotation "k" = none ∧
    (FlatAttributes.zero.setFast "k" (1 : Nat)).getByDotNotation "k" =
      some 1 ∧
    (FlatAttributes.zero.setFast "k" (1 : Nat)).isEmpty = false :=
  ⟨by decide, by decide, by decide⟩

/-- C6: `Keys` reports only the map tier, so a key retrievable by `Get`
from the inline tier is missing from `Keys`; and in a state holding the
same key in both tiers, `Walk` visits that populated path twice. -/
theorem C6_keys_misses_inline_tier :
    (FlatAttributes.zero.setFast "k" (1 : Nat)).keys = [] ∧
    (FlatAttributes.zero.setFast "k" (1 : Nat)).getByDotNotation "k" =
      some 1 ∧
    ((FlatAttributes.zero.setFast "k" (1 : Nat)).setByDotNotation
      "k" 2).walkEntries.length = 2 ∧
    ((FlatAttributes.zero.setFast "k" (1 : Nat)).setByDotNotation
      "k" 2).keys = ["k"] :=
  ⟨by decide, by decide, by decide, by decide⟩

/-- C7, counterexample: a directive `mask[N]` whose numeral exceeds the
machine integer range is parsed by the regular expression but overflows
`Atoi`, and the code then masks fully instead of leaving the string
unchanged as the claim requires for `N ≥ length(s)`. -/
theorem C7_counterexample :
    maskValue (.vstr "ab") "mask[99999999999999999999]" = .vstr "**" ∧
    maskValue (.vstr "ab") "mask[99999999999999999999]" ≠ .vstr "ab" := by
  have h : maskValue (.vstr "ab") "mask[99999999999999999999]" =
      .vstr "**" := rfl
  refine ⟨h, ?_⟩
  rw [h]
  intro hcontra
  have hs : "**" = "ab" := by injection hcontra
  exact absurd hs (by decide)

/-- C7 (amended): the masking transform on a string value behaves as the
claim states — `mask` masks every character (the empty string stays
empty), a parsed `mask[N]` within the machine integer range reveals the
first `N` characters and masks the rest or returns the string unchanged
when `N` is at least its length, and an unrecognized directive returns
the string unchanged — except that a `mask[N]` whose numeral overflows
the machine integer range masks the whole string. -/
theorem C7_masking_transform :
    (∀ s : String, maskValue (.vstr s) "mask" = .vstr (mkStars s.length)) ∧
    (∀ (s d : String) (ds : List Char), maskBracketDigits d = some ds →
      digitsToNat ds ≤ maxGoInt →
      maskValue (.vstr s) d =
        if s.length ≤ digitsToNat ds then .vstr s
        else .vstr (takeStr (digitsToNat ds) s ++
          mkStars (s.length - digitsToNat ds))) ∧
    (∀ (s d : String) (ds : List Char), maskBracketDigits d = some ds →
      maxGoInt < digitsToNat ds →
      maskValue (.vstr s) d = .vstr (mkStars s.length)) ∧
    (∀ (s d : String), maskBracketDigits d = none → d ≠ "mask" →
      maskValue (.vstr s) d = .vstr s) ∧
    maskValue (.vstr "secret") "mask[3]" = .vstr "sec***" ∧
    maskValue (.vstr "ab") "mask[3]" = .vstr "ab" ∧
    maskValue (.vstr "") "mask" = .vstr "" ∧
    maskValue (.vstr "x") "mask[0]" = .vstr "*" := by
  refine ⟨?_, ?_, ?_, ?_, rfl, rfl, rfl, rfl⟩
  · intro s
    unfold maskValue
    rw [if_neg (by decide : ¬("mask" : String) = "")]
    simp only [displayRVal]
    by_cases hs : s = ""
    · subst hs
      rw [if_pos rfl]
      rfl
    · rw [if_neg hs]
      rw [show maskBracketDigits "mask" = none from rfl]
      simp
  · intro s d ds hds hbound
    have hd : d ≠ "" := by
      intro hdd
      subst hdd
      exact Option.noConfusion
        (show (none : Option (List Char)) = some ds from hds)
    unfold maskValue
    rw [if_neg hd]
    simp only [displayRVal]
    by_cases hs : s = ""
    · subst hs
      rw [if_pos rfl]
      simp
    · rw [if_neg hs, hds]
      simp [goAtoi, hbound]
  · intro s d ds hds hbig
    have hd : d ≠ "" := by
      intro hdd
      subst hdd
      exact Option.noConfusion
        (show (none : Option (List Char)) = some ds from hds)
    unfold maskValue
    rw [if_neg hd]
    simp only [displayRVal]
    by_cases hs : s = ""
    · subst hs
      rw [if_pos rfl]
      rfl
    · rw [if_neg hs, hds]
      simp [goAtoi, show ¬digitsToNat ds ≤ maxGoInt from by omega]
  · intro s d hnone hmask
    by_cases hd : d = ""
    · subst hd
      unfold maskValue
      rw [if_pos rfl]
    · unfold maskValue
      rw [if_neg hd]
      simp only [displayRVal]
      by_cases hs : s = ""
      · subst hs
        rw [if_pos rfl]
      · rw [if_neg hs, hnone, if_neg hmask]

/-- Witness for C7: the bounded `mask[N]` clause instantiated at a
concrete string and directive. -/
theorem C7_masking_transform_witness :
    maskValue (.vstr "email@test.com") "mask[5]" = .vstr "email*********" := by
  have h := C7_masking_transform.2.1 "email@test.com" "mask[5]"
    [Char.ofNat 53] rfl (by decide)
  rw [h]
  rfl

/-- C8, counterexample: flattening a struct with an exported nil pointer
field produces an entry at the field's computed path holding the nil
pointer, rather than skipping the field. -/
theorem C8_counterexample :
    (expandStruct FlatAttributes.new "u"
      (.vstruct [("Opt", true, "", .vptr none)])).getByDotNotation "u.opt" =
      some (.vptr none) ∧
    (expandStruct FlatAttributes.new "u"
      (.vstruct [("Opt", true, "", .vptr none)])).getByDotNotation "u.opt" ≠
      none := by
  refine ⟨rfl, ?_⟩
  rw [show (expandStruct FlatAttributes.new "u"
      (.vstruct [("Opt", true, "", .vptr none)])).getByDotNotation "u.opt" =
      some (.vptr none) from rfl]
  exact fun h => Option.noConfusion h

/-- C8 (amended): a nil pointer field is not skipped — it is stored as-is
(a null placeholder) at its computed path, so flattening produces an
entry there; a non-nil pointer to a struct is dereferenced and its
pointee's fields are recursively flattened under the field's key. -/
theorem C8_nil_pointer_fields_stored (pfx fname tag : String)
    (st : FlatAttributes RVal)
    (fs : List (String × Bool × String × RVal)) :
    expandFields st pfx [(fname, true, tag, .vptr none)] =
      st.setByDotNotation (fieldKeyOf pfx fname)
        (if tagIsMask tag then maskValue (.vptr none) tag
         else .vptr none) ∧
    ((expandFields st pfx [(fname, true, tag, .vptr none)]).getByDotNotation
      (fieldKeyOf pfx fname)).isSome = true ∧
    expandFields st pfx [(fname, true, tag, .vptr (some (.vstruct fs)))] =
      expandFields st (fieldKeyOf pfx fname) fs := by
  refine ⟨?_, ?_, ?_⟩
  · simp [expandFields, isStructKind]
  · have h : expandFields st pfx [(fname, true, tag, .vptr none)] =
        st.setByDotNotation (fieldKeyOf pfx fname)
          (if tagIsMask tag then maskValue (.vptr none) tag
           else .vptr none) := by
      simp [expandFields, isStructKind]
    rw [h]
    exact FlatAttributes.getByDot_setByDot_isSome st _ _
  · simp [expandFields, isStructKind, expandStruct]

/-- C9, counterexample: on the tree store, a zero-segment write is not a
no-op — it stores the value at the root, the value count grows, and a
zero-segment read retrieves it. -/
theorem C9_counterexample :
    ((RecursiveMap.new : RecursiveMap Nat).set [] 1).get [] = some 1 ∧
    ((RecursiveMap.new : RecursiveMap Nat).set [] 1).size = 1 :=
  ⟨by decide, by decide⟩

/-- C9 (amended): on the flat store the claim holds — a zero-segment
write is a silent no-op leaving the store unchanged, a zero-segment read
consults the empty dotted key, and on a fresh store that read is
not-found.  The tree store instead stores at and reads from the root. -/
theorem C9_flat_empty_path_noop {V : Type u} (f : FlatAttributes V)
    (v : V) :
    f.set [] v = f ∧
    f.get [] = f.getByDotNotation "" ∧
    (FlatAttributes.new : FlatAttributes V).get [] = none :=
  ⟨rfl, rfl, rfl⟩

/-- C10, counterexample: `ReturnRecordToPool` does not reset the record
before putting it back — the pooled instance still carries its populated
attribute store. -/
theorem C10_counterexample :
    returnRecordToPool ([] : List (Record Nat))
        ⟨0, "", 0, FlatAttributes.new.setFast "k" 1⟩ =
      [⟨0, "", 0, FlatAttributes.new.setFast "k" 1⟩] ∧
    ((FlatAttributes.new : FlatAttributes Nat).setFast "k" 1).size = 1 :=
  ⟨rfl, by decide⟩

/-- C10 (amended): the attribute-store pool resets on both release and
acquire, the record pool resets only on acquire (release puts the record
back as-is), and consequently every instance handed out by either
acquire operation has zero populated keys. -/
theorem C10_acquire_resets {V : Type u} (candidate : Record V)
    (level : Nat) (msg : String) (now : Nat)
    (cand2 : FlatAttributes V) (pool : List (FlatAttributes V))
    (f : FlatAttributes V) :
    (newRecordFromPool candidate level msg now).attrs.size = 0 ∧
    (newRecordFromPool candidate level msg now).attrs.isEmpty = true ∧
    (newFlatAttributesFromPool cand2).size = 0 ∧
    (newFlatAttributesFromPool cand2).isEmpty = true ∧
    returnFlatAttributesToPool pool f = f.reset :: pool ∧
    f.reset.size = 0 := by
  refine ⟨FlatAttributes.size_reset _, ?_, FlatAttributes.size_reset _, ?_,
    rfl, FlatAttributes.size_reset _⟩
  · simp [FlatAttributes.isEmpty, FlatAttributes.size_reset,
      newRecordFromPool]
  · simp [FlatAttributes.isEmpty, FlatAttributes.size_reset,
      newFlatAttributesFromPool]


end Sawmill
